import Mathlib

/-!
Verification of the business-calendar and expiry-resolution engine of the
`br-central-bank-sentiment` repository (file `src/ettj_getter/contador_dias.py`).

Dates are embedded as year/month/day triples of integers.  Comparisons and
membership tests on pandas timestamps are embedded through `toNum`, the count
of days since 1970-01-01 (the standard civil-calendar day number, so that two
valid dates denote the same instant exactly when their day numbers agree).
`DCS` embeds `DCS_DF` (`pd.date_range("1990-01-01", "2070-01-01")`, every
calendar day of the horizon, both endpoints included, in ascending order).
The B3 business-day table `DUS_DF` is external injected data, so it is
embedded as a `Calendar` parameter: an ascending list of dates drawn from the
horizon.  Python exceptions are embedded with `Except PyError`.
-/

structure Date where
  y : Int
  m : Int
  d : Int
  deriving DecidableEq, Repr

/-- Day number of a date: days elapsed since 1970-01-01 (Gregorian, valid for
nonnegative years).  This is the standard civil-from-date algorithm, so a
pandas timestamp comparison embeds as a comparison of `toNum` values. -/
def toNum (dt : Date) : Int :=
  let yy := if dt.m ≤ 2 then dt.y - 1 else dt.y
  let mp := if dt.m ≤ 2 then dt.m + 9 else dt.m - 3
  let doy := (153 * mp + 2) / 5 + dt.d - 1
  365 * yy + yy / 4 - yy / 100 + yy / 400 + doy - 719468

/-- Pandas `.weekday`: Monday = 0, ..., Sunday = 6. -/
def weekday (dt : Date) : Int :=
  (toNum dt + 3) % 7

def isLeap (y : Int) : Bool :=
  y % 4 == 0 && (y % 100 != 0 || y % 400 == 0)

def monthLen (y m : Int) : Nat :=
  if m = 2 then (if isLeap y then 29 else 28)
  else if m = 4 ∨ m = 6 ∨ m = 9 ∨ m = 11 then 30
  else 31

/-- The days of month `m` of year `y`, ascending. -/
def monthDates (y m : Int) : List Date :=
  (List.range (monthLen y m)).map (fun (i : Nat) => ⟨y, m, (i : Int) + 1⟩)

/-- The days of year `y`, ascending. -/
def yearDates (y : Int) : List Date :=
  monthDates y 1 ++ (monthDates y 2 ++ (monthDates y 3 ++ (monthDates y 4 ++
  (monthDates y 5 ++ (monthDates y 6 ++ (monthDates y 7 ++ (monthDates y 8 ++
  (monthDates y 9 ++ (monthDates y 10 ++ (monthDates y 11 ++ monthDates y 12))))))))))

/-- The days of `n` consecutive years starting at year `a`, ascending. -/
def yearsFrom (a : Int) : Nat → List Date
  | 0 => []
  | n + 1 => yearDates a ++ yearsFrom (a + 1) n

/-- Embedding of `DCS_DF`: every calendar day from 1990-01-01 to 2070-01-01
inclusive (`pd.date_range` includes both endpoints), ascending. -/
def DCS : List Date :=
  yearsFrom 1990 80 ++ [⟨2070, 1, 1⟩]

/-- Embedding of the injected `DUS_DF` (the B3 business-day schedule over the
horizon): an ascending, duplicate-free list of dates of the horizon. -/
structure Calendar where
  dus : List Date
  sorted : List.Pairwise (fun a b => toNum a < toNum b) dus
  sub : ∀ x ∈ dus, x ∈ DCS

/-- Membership test against `DUS_DF.index` (timestamp equality). -/
def indexContains (cal : Calendar) (x : Date) : Bool :=
  cal.dus.any (fun b => toNum b == toNum x)

/-- Python exceptions raised by the engine. -/
inductive PyError where
  | indexError
  | valueError
  deriving DecidableEq, Repr

/-- Embedding of the `DCS_DF` month filter (`index.month == m & index.year == y`). -/
def dcs_month (m y : Int) : List Date :=
  DCS.filter (fun x => x.m == m && x.y == y)

/-- Embedding of the `DUS_DF` month filter. -/
def dus_month (cal : Calendar) (m y : Int) : List Date :=
  cal.dus.filter (fun x => x.m == m && x.y == y)

/-- Embeds `get_first_du_month`: first business day of the month (`index[0]`). -/
def get_first_du_month (cal : Calendar) (m y : Int) : Except PyError Date :=
  match (dus_month cal m y).head? with
  | some d => .ok d
  | none => .error .indexError

/-- Embeds `get_last_du_month`: last business day of the month (`index[-1]`). -/
def get_last_du_month (cal : Calendar) (m y : Int) : Except PyError Date :=
  match (dus_month cal m y).getLast? with
  | some d => .ok d
  | none => .error .indexError

/-- The Fridays of the month, ascending (`DCS_DF` month filter, `weekday == 4`). -/
def fridays (m y : Int) : List Date :=
  (dcs_month m y).filter (fun x => weekday x == 4)

/-- Embeds `get_third_friday_du_month`: third Friday of the month (`index[2]`); if it
is not in `DUS_DF.index`, the last business day strictly before it. -/
def get_third_friday_du_month (cal : Calendar) (m y : Int) : Except PyError Date :=
  match (fridays m y)[2]? with
  | none => .error .indexError
  | some f =>
    if indexContains cal f then .ok f
    else
      match (cal.dus.filter (fun b => toNum b < toNum f)).getLast? with
      | some b => .ok b
      | none => .error .indexError

/-- The Wednesdays of the month, ascending (`weekday == 2`). -/
def wednesdays (m y : Int) : List Date :=
  (dcs_month m y).filter (fun x => weekday x == 2)

/-- Distance `abs(15 - index.day)` of a date's day-of-month from 15. -/
def dist_fifteen (x : Date) : Nat :=
  (15 - x.d).natAbs

/-- Insert into a list sorted by `dist_fifteen`, keeping earlier-listed dates
first on ties. -/
def insertByDist (x : Date) : List Date → List Date
  | [] => [x]
  | h :: t =>
    if dist_fifteen x ≤ dist_fifteen h then x :: h :: t
    else h :: insertByDist x t

/-- Embeds `sort_values(by="dist_fifteen")`: sort the dates by their distance to the
15th of the month. -/
def sortByDist : List Date → List Date
  | [] => []
  | x :: t => insertByDist x (sortByDist t)

/-- Embeds `get_wednesday_closest_fifteen`: the Wednesday of the month closest to the
15th (`sort_values` by distance, `index[0]`); if it is not in `DUS_DF.index`,
the first business day strictly after it. -/
def get_wednesday_closest_fifteen (cal : Calendar) (m y : Int) : Except PyError Date :=
  match (sortByDist (wednesdays m y)).head? with
  | none => .error .indexError
  | some w =>
    if indexContains cal w then .ok w
    else
      match (cal.dus.filter (fun b => toNum w < toNum b)).head? with
      | some b => .ok b
      | none => .error .indexError

/-- Embeds `get_fifteen`: business days of the month at or after the literal date
`<y>-<m>-15` (built by `strptime`), first one (`index[0]`). -/
def get_fifteen (cal : Calendar) (m y : Int) : Except PyError Date :=
  match ((dus_month cal m y).filter
      (fun x => toNum (⟨y, m, 15⟩ : Date) ≤ toNum x)).head? with
  | some d => .ok d
  | none => .error .indexError

/-- Embeds `calc_du`: number of `DUS_DF` dates `d` with `dia_1 < d ≤ dia_n`. -/
def calc_du (cal : Calendar) (dia_1 dia_n : Date) : Nat :=
  (cal.dus.filter (fun x => toNum dia_1 < toNum x && toNum x ≤ toNum dia_n)).length

/-- Embeds `calc_dc`: number of `DCS_DF` dates `d` with `dia_1 < d ≤ dia_n`. -/
def calc_dc (dia_1 dia_n : Date) : Nat :=
  (DCS.filter (fun x => toNum dia_1 < toNum x && toNum x ≤ toNum dia_n)).length

/-- Embeds `MONTH_CODES`: the CME month-letter table. -/
def MONTH_CODES : List (String × Int) :=
  [("F", 1), ("G", 2), ("H", 3), ("J", 4), ("K", 5), ("M", 6),
   ("N", 7), ("Q", 8), ("U", 9), ("V", 10), ("X", 11), ("Z", 12)]

/-- Embeds `df["vencimento"].str[0]` followed by `.map(MONTH_CODES)`: the first
character looked up in the table; an unmatched key becomes NaN (`none`).
Strings are handled through their character lists. -/
def mes_vcto (s : String) : Option Int :=
  MONTH_CODES.lookup (String.mk (s.data.take 1))

/-- Embeds `"20" + df["vencimento"].str[1:]`. -/
def ano_vcto (s : String) : String :=
  String.mk ('2' :: '0' :: s.data.drop 1)

/-- ASCII whitespace accepted by Python around an integer literal
(space, tab, newline, carriage return, vertical tab, form feed). -/
def isPyWs (c : Char) : Bool :=
  c.toNat = 32 || c.toNat = 9 || c.toNat = 10 || c.toNat = 13 ||
    c.toNat = 11 || c.toNat = 12

/-- ASCII decimal digit. -/
def isPyDigit (c : Char) : Bool :=
  48 ≤ c.toNat && c.toNat ≤ 57

/-- ASCII letter. -/
def isAsciiLetter (c : Char) : Bool :=
  (65 ≤ c.toNat && c.toNat ≤ 90) || (97 ≤ c.toNat && c.toNat ≤ 122)

/-- Strip leading and trailing whitespace from a character list. -/
def stripWs (l : List Char) : List Char :=
  ((l.dropWhile isPyWs).reverse.dropWhile isPyWs).reverse

/-- Continuation of a digit run in which single underscores may separate
digits; `p` records whether the previous character was an underscore (a run
may neither end with one nor contain two in a row). -/
def pyDigitsAux : Bool → List Char → Bool
  | p, [] => !p
  | p, c :: t =>
    if c.toNat = 95 then !p && pyDigitsAux true t
    else isPyDigit c && pyDigitsAux false t

/-- A digit followed by digits with single underscores between digits: the
digit part of Python's base-10 integer-literal grammar. -/
def pyDigits : List Char → Bool
  | [] => false
  | c :: t => isPyDigit c && pyDigitsAux false t

/-- Decimal value of a digit run, ignoring its underscores. -/
def digitsVal (l : List Char) : Int :=
  (l.filter (fun c => c.toNat != 95)).foldl
    (fun a c => a * 10 + ((c.toNat : Int) - 48)) 0

/-- A stripped integer literal: optional sign, then digits with single
underscores between digits. -/
def pySigned : List Char → Option Int
  | [] => none
  | c :: t =>
    if c.toNat = 43 then (if pyDigits t then some (digitsVal t) else none)
    else if c.toNat = 45 then (if pyDigits t then some (-digitsVal t) else none)
    else (if pyDigits (c :: t) then some (digitsVal (c :: t)) else none)

/-- Core of Python `int()` on a character list: optional surrounding
whitespace, optional sign, digits with single underscores between digits. -/
def pyIntCore (l : List Char) : Option Int :=
  pySigned (stripWs l)

/-- Model of Python `int()` applied to a string, over the ASCII fragment of
its base-10 grammar: optional surrounding whitespace, an optional sign, then
digits with single underscores between digits; anything else raises
`ValueError`.  Real `int()` additionally accepts Unicode decimal digits and
Unicode whitespace, which this model rejects; no theorem below invokes the
error path there — errors are only concluded for strings containing an ASCII
letter, which real `int()` rejects as well. -/
def pyInt (s : String) : Except PyError Int :=
  match pyIntCore s.data with
  | some n => .ok n
  | none => .error .valueError

/-- Python `int()` applied to the mapped month column: `ValueError` on NaN. -/
def pyIntOfMes (v : Option Int) : Except PyError Int :=
  match v with
  | some n => .ok n
  | none => .error .valueError

/-- A row of the input table: the CME-format `vencimento` ticker string. -/
structure RowIn where
  vencimento : String
  deriving DecidableEq, Repr

/-- Dispatch of the five recognized convention selectors. -/
def applyMetodo (cal : Calendar) (metodo : String) (m y : Int) : Except PyError Date :=
  if metodo = "prim_du" then get_first_du_month cal m y
  else if metodo = "ult_du" then get_last_du_month cal m y
  else if metodo = "terceira_sexta" then get_third_friday_du_month cal m y
  else if metodo = "quarta_prox_quinze" then get_wednesday_closest_fifteen cal m y
  else get_fifteen cal m y

/-- One row of the `df.apply` lambda: convert the decoded month and year with
`int()`, then resolve the expiry under the chosen convention. -/
def processRow (cal : Calendar) (metodo : String) (r : RowIn) : Except PyError Date := do
  let m ← pyIntOfMes (mes_vcto r.vencimento)
  let y ← pyInt (ano_vcto r.vencimento)
  applyMetodo cal metodo m y

/-- Embeds `add_dia_vencimento_df`: on a recognized selector, apply the resolver to
every row (pandas `apply` aborts on the first raising row); on an unrecognized
selector no branch runs, so the table is returned with no expiry column
(`none` in the output pair). -/
def add_dia_vencimento_df (cal : Calendar) (df : List RowIn) (metodo : String) :
    Except PyError (List (RowIn × Option Date)) :=
  if metodo = "prim_du" ∨ metodo = "ult_du" ∨ metodo = "terceira_sexta" ∨
      metodo = "quarta_prox_quinze" ∨ metodo = "dia_15" then
    df.mapM (fun r => (processRow cal metodo r).map (fun d => (r, some d)))
  else .ok (df.map (fun r => (r, none)))

/-- Successor step between dates: the second is the day after the first. -/
def dstep (a b : Date) : Prop := toNum b = toNum a + 1

theorem toNum_day_succ (y m d : Int) :
    toNum ⟨y, m, d + 1⟩ = toNum ⟨y, m, d⟩ + 1 := by
  simp only [toNum]
  split_ifs <;> omega

theorem toNum_day_shift (y m a b : Int) :
    toNum ⟨y, m, a⟩ = toNum ⟨y, m, b⟩ + (a - b) := by
  simp only [toNum]
  split_ifs <;> omega

theorem year_boundary (y : Int) :
    toNum ⟨y + 1, 1, 1⟩ = toNum ⟨y, 12, 31⟩ + 1 := by
  simp only [toNum]
  split_ifs <;> omega

theorem month_boundary (y m : Int) (h1 : 1 ≤ m) (h2 : m ≤ 11) :
    toNum ⟨y, m + 1, 1⟩ = toNum ⟨y, m, (monthLen y m : Int)⟩ + 1 := by
  interval_cases m <;>
    simp only [toNum, monthLen, isLeap] <;>
    split_ifs <;>
    simp_all <;> omega

theorem monthLen_pos (y m : Int) : 0 < monthLen y m := by
  simp only [monthLen]; split_ifs <;> norm_num

theorem monthLen_ge (y m : Int) : 28 ≤ monthLen y m := by
  simp only [monthLen]; split_ifs <;> norm_num

theorem monthLen_le (y m : Int) : monthLen y m ≤ 31 := by
  simp only [monthLen]; split_ifs <;> norm_num

theorem head?_range_map {α : Type} (f : Nat → α) (n : Nat) (h : 0 < n) :
    ((List.range n).map f).head? = some (f 0) := by
  obtain ⟨k, rfl⟩ : ∃ k, n = k + 1 := ⟨n - 1, by omega⟩
  rw [List.range_succ_eq_map]
  simp

theorem getLast?_range_map {α : Type} (f : Nat → α) (n : Nat) :
    ((List.range (n + 1)).map f).getLast? = some (f n) := by
  rw [List.range_succ, List.map_append]
  simp

theorem chain'_range_map {α : Type} (R : α → α → Prop) (f : Nat → α)
    (h : ∀ i, R (f i) (f (i + 1))) (n : Nat) :
    List.Chain' R ((List.range n).map f) := by
  induction n with
  | zero => simp
  | succ k ih =>
    rw [List.range_succ, List.map_append]
    refine List.chain'_append.mpr ⟨ih, List.chain'_singleton _, ?_⟩
    intro a ha b hb
    simp at hb
    cases k with
    | zero => simp at ha
    | succ j =>
      rw [getLast?_range_map] at ha
      simp at ha
      rw [← ha, ← hb]
      exact h j

theorem head?_monthDates (y m : Int) :
    (monthDates y m).head? = some ⟨y, m, 1⟩ := by
  rw [monthDates, head?_range_map _ _ (monthLen_pos y m)]
  norm_num

theorem getLast?_monthDates (y m : Int) :
    (monthDates y m).getLast? = some ⟨y, m, (monthLen y m : Int)⟩ := by
  obtain ⟨k, hk⟩ : ∃ k, monthLen y m = k + 1 := ⟨monthLen y m - 1, by have := monthLen_pos y m; omega⟩
  rw [monthDates, hk, getLast?_range_map]
  push_cast
  norm_num

theorem chain'_monthDates (y m : Int) : List.Chain' dstep (monthDates y m) := by
  apply chain'_range_map
  intro i
  show toNum ⟨y, m, ((i + 1 : Nat) : Int) + 1⟩ = toNum ⟨y, m, (i : Int) + 1⟩ + 1
  have h : ((i + 1 : Nat) : Int) + 1 = ((i : Int) + 1) + 1 := by push_cast; ring
  rw [h, toNum_day_succ]

theorem dstep_month (y m n : Int) (h1 : 1 ≤ m) (h2 : m ≤ 11) (h3 : n = m + 1) :
    dstep ⟨y, m, (monthLen y m : Int)⟩ ⟨y, n, 1⟩ := by
  subst h3
  exact month_boundary y m h1 h2

theorem chain'_append_of {α : Type} {R : α → α → Prop} {l₁ l₂ : List α}
    (h₁ : List.Chain' R l₁) (h₂ : List.Chain' R l₂)
    (h : ∀ a ∈ l₁.getLast?, ∀ b ∈ l₂.head?, R a b) : List.Chain' R (l₁ ++ l₂) :=
  List.chain'_append.mpr ⟨h₁, h₂, h⟩

theorem chain'_months_glue (y : Int) (m n : Int) (h1 : 1 ≤ m) (h2 : m ≤ 11)
    (h3 : n = m + 1) (l : List Date) (hl : List.Chain' dstep l)
    (hh : l.head? = some ⟨y, n, 1⟩) :
    List.Chain' dstep (monthDates y m ++ l) := by
  refine chain'_append_of (chain'_monthDates y m) hl ?_
  rw [getLast?_monthDates, hh]
  intro a ha b hb
  simp only [Option.mem_def, Option.some_inj] at ha hb
  subst ha
  subst hb
  exact dstep_month y m n h1 h2 h3

theorem chain'_yearDates (y : Int) : List.Chain' dstep (yearDates y) := by
  unfold yearDates
  refine chain'_months_glue y 1 2 (by norm_num) (by norm_num) (by norm_num) _ ?_ (by
    simp [List.head?_append, head?_monthDates])
  refine chain'_months_glue y 2 3 (by norm_num) (by norm_num) (by norm_num) _ ?_ (by
    simp [List.head?_append, head?_monthDates])
  refine chain'_months_glue y 3 4 (by norm_num) (by norm_num) (by norm_num) _ ?_ (by
    simp [List.head?_append, head?_monthDates])
  refine chain'_months_glue y 4 5 (by norm_num) (by norm_num) (by norm_num) _ ?_ (by
    simp [List.head?_append, head?_monthDates])
  refine chain'_months_glue y 5 6 (by norm_num) (by norm_num) (by norm_num) _ ?_ (by
    simp [List.head?_append, head?_monthDates])
  refine chain'_months_glue y 6 7 (by norm_num) (by norm_num) (by norm_num) _ ?_ (by
    simp [List.head?_append, head?_monthDates])
  refine chain'_months_glue y 7 8 (by norm_num) (by norm_num) (by norm_num) _ ?_ (by
    simp [List.head?_append, head?_monthDates])
  refine chain'_months_glue y 8 9 (by norm_num) (by norm_num) (by norm_num) _ ?_ (by
    simp [List.head?_append, head?_monthDates])
  refine chain'_months_glue y 9 10 (by norm_num) (by norm_num) (by norm_num) _ ?_ (by
    simp [List.head?_append, head?_monthDates])
  refine chain'_months_glue y 10 11 (by norm_num) (by norm_num) (by norm_num) _ ?_ (by
    simp [List.head?_append, head?_monthDates])
  refine chain'_months_glue y 11 12 (by norm_num) (by norm_num) (by norm_num) _ ?_ (by
    simp [head?_monthDates])
  exact chain'_monthDates y 12

theorem head?_yearDates (y : Int) : (yearDates y).head? = some ⟨y, 1, 1⟩ := by
  unfold yearDates
  simp [List.head?_append, head?_monthDates]

theorem getLast?_yearDates (y : Int) : (yearDates y).getLast? = some ⟨y, 12, 31⟩ := by
  unfold yearDates
  simp [List.getLast?_append, getLast?_monthDates, monthLen]

theorem yearDates_ne_nil (y : Int) : yearDates y ≠ [] := by
  intro h
  have := head?_yearDates y
  rw [h] at this
  simp at this

theorem head?_yearsFrom (a : Int) (n : Nat) (h : 0 < n) :
    (yearsFrom a n).head? = some ⟨a, 1, 1⟩ := by
  obtain ⟨k, rfl⟩ : ∃ k, n = k + 1 := ⟨n - 1, by omega⟩
  show (yearDates a ++ yearsFrom (a + 1) k).head? = _
  rcases k with _ | k
  · simpa [yearsFrom] using head?_yearDates a
  · simp [List.head?_append, head?_yearDates]

theorem getLast?_yearsFrom (a : Int) (n : Nat) (h : 0 < n) :
    (yearsFrom a n).getLast? = some ⟨a + n - 1, 12, 31⟩ := by
  induction n generalizing a with
  | zero => omega
  | succ k ih =>
    show (yearDates a ++ yearsFrom (a + 1) k).getLast? = _
    rcases k with _ | k
    · simpa [yearsFrom] using getLast?_yearDates a
    · rw [List.getLast?_append, ih (a + 1) (by omega)]
      simp only [Option.or_some]
      congr 2
      omega

theorem chain'_yearsFrom (a : Int) (n : Nat) : List.Chain' dstep (yearsFrom a n) := by
  induction n generalizing a with
  | zero => exact List.chain'_nil
  | succ k ih =>
    show List.Chain' dstep (yearDates a ++ yearsFrom (a + 1) k)
    refine chain'_append_of (chain'_yearDates a) (ih (a + 1)) ?_
    rw [getLast?_yearDates]
    rcases k with _ | k
    · intro x hx b hb
      simp [yearsFrom] at hb
    · rw [head?_yearsFrom (a + 1) (k + 1) (by omega)]
      intro x hx b hb
      simp only [Option.mem_def, Option.some_inj] at hx hb
      subst hx
      subst hb
      exact year_boundary a

theorem chain'_DCS : List.Chain' dstep DCS := by
  refine chain'_append_of (chain'_yearsFrom 1990 80) (List.chain'_singleton _) ?_
  rw [getLast?_yearsFrom 1990 80 (by omega)]
  intro x hx b hb
  simp only [Option.mem_def, Option.some_inj, List.head?_cons] at hx hb
  subst hx
  subst hb
  show toNum _ = toNum _ + 1
  have h : (2070 : Int) = 2069 + 1 := by norm_num
  rw [h, year_boundary]
  norm_num

theorem head?_DCS : DCS.head? = some ⟨1990, 1, 1⟩ := by
  show (yearsFrom 1990 80 ++ _).head? = _
  rw [List.head?_append, head?_yearsFrom 1990 80 (by omega)]
  rfl

theorem getLast?_DCS : DCS.getLast? = some ⟨2070, 1, 1⟩ := by
  show (yearsFrom 1990 80 ++ ([⟨2070, 1, 1⟩] : List Date)).getLast? = _
  rw [List.getLast?_concat]

/-- A block of `n` consecutive integers starting at `c`. -/
def consec (c : Int) : Nat → List Int
  | 0 => []
  | n + 1 => c :: consec (c + 1) n

theorem chain'_eq_consec (L : List Int) (hc : List.Chain' (fun u v => v = u + 1) L) :
    ∀ h, L.head? = some h → L = consec h L.length := by
  induction L with
  | nil => intro h hh; simp at hh
  | cons x t ih =>
    intro h hh
    have hx : h = x := by
      simp only [List.head?_cons, Option.some_inj] at hh
      omega
    subst hx
    rcases t with _ | ⟨u, t'⟩
    · rfl
    · rw [List.chain'_cons] at hc
      have ht := ih hc.2 u rfl
      show _ = h :: consec (h + 1) (u :: t').length
      rw [← hc.1, ← ht]

theorem mem_consec (z c : Int) (n : Nat) : z ∈ consec c n ↔ c ≤ z ∧ z < c + n := by
  induction n generalizing c with
  | zero => simp [consec]
  | succ k ih =>
    simp only [consec, List.mem_cons, ih (c + 1)]
    constructor
    · rintro (rfl | ⟨h1, h2⟩) <;> constructor <;> omega
    · intro ⟨h1, h2⟩
      rcases eq_or_lt_of_le h1 with rfl | hlt
      · exact Or.inl rfl
      · exact Or.inr ⟨by omega, by omega⟩

theorem getLast?_consec (c : Int) (n : Nat) :
    (consec c (n + 1)).getLast? = some (c + n) := by
  induction n generalizing c with
  | zero =>
    show (c :: []).getLast? = _
    simp
  | succ k ih =>
    show (c :: consec (c + 1) (k + 1)).getLast? = _
    rw [List.getLast?_cons, ih (c + 1)]
    simp only [Option.getD_some, Option.some_inj]
    push_cast
    omega

/-- The count of integers in the half-open window `(a, b]` drawn from a block
of consecutive integers covering the window. -/
theorem countP_consec (n : Nat) (c a b : Int) (h1 : c ≤ a + 1) (h2 : b + 1 ≤ c + n)
    (h3 : a ≤ b) :
    (consec c n).countP (fun z => decide (a < z) && decide (z ≤ b)) = (b - a).toNat := by
  induction n generalizing c a with
  | zero =>
    show List.countP _ [] = _
    rw [List.countP_nil]
    omega
  | succ k ih =>
    show List.countP _ (c :: consec (c + 1) k) = _
    rw [List.countP_cons]
    by_cases hd : a < c ∧ c ≤ b
    · have hc : c = a + 1 := by omega
      have hhead : (decide (a < c) && decide (c ≤ b)) = true := by
        simp only [Bool.and_eq_true, decide_eq_true_eq]
        exact hd
      rw [hhead, if_pos rfl]
      rcases eq_or_lt_of_le hd.2 with rfl | hlt
      · have hz : (consec (c + 1) k).countP (fun z => decide (a < z) && decide (z ≤ c)) = 0 := by
          rw [List.countP_eq_zero]
          intro z hz
          rw [mem_consec] at hz
          simp only [Bool.and_eq_true, decide_eq_true_eq, not_and]
          intro
          omega
        rw [hz]
        omega
      · have heq : (consec (c + 1) k).countP (fun z => decide (a < z) && decide (z ≤ b)) =
            (consec (c + 1) k).countP (fun z => decide (c < z) && decide (z ≤ b)) := by
          apply List.countP_congr
          intro z hz
          rw [mem_consec] at hz
          simp only [Bool.and_eq_true, decide_eq_true_eq]
          constructor <;> intro <;> constructor <;> omega
        rw [heq, ih (c + 1) c (by omega) (by omega) (by omega)]
        omega
    · have hhead : (decide (a < c) && decide (c ≤ b)) = false := by
        simp only [Bool.and_eq_false_iff, decide_eq_false_iff_not]
        by_cases hac : a < c
        · exact Or.inr (fun hcb => hd ⟨hac, hcb⟩)
        · exact Or.inl hac
      rw [hhead, if_neg (by simp)]
      by_cases hac : a < c
      · have hb : b = a := by omega
        subst hb
        rw [List.countP_eq_zero.mpr]
        · omega
        · intro z hz
          rw [mem_consec] at hz
          simp only [Bool.and_eq_true, decide_eq_true_eq, not_and]
          intro
          omega
      · rw [ih (c + 1) a (by omega) (by omega) h3]
        omega

instance : IsTrans Date (fun a b => toNum a < toNum b) :=
  ⟨fun _ _ _ hab hbc => lt_trans hab hbc⟩

/-- The horizon is strictly ascending day by day, hence strictly sorted. -/
theorem pairwise_DCS : List.Pairwise (fun a b => toNum a < toNum b) DCS :=
  List.chain'_iff_pairwise.mp (chain'_DCS.imp (fun _ _ h => by simp only [dstep] at h; omega))

theorem chain'_map_toNum_DCS :
    List.Chain' (fun u v => v = u + 1) (DCS.map toNum) :=
  (List.chain'_map toNum).mpr chain'_DCS

theorem toNum_19900101 : toNum ⟨1990, 1, 1⟩ = 7305 := by decide

theorem toNum_20700101 : toNum ⟨2070, 1, 1⟩ = 36525 := by decide

theorem map_toNum_DCS : DCS.map toNum = consec 7305 (DCS.length) := by
  have h := chain'_eq_consec (DCS.map toNum) chain'_map_toNum_DCS 7305 (by
    rw [List.head?_map, head?_DCS]
    simp [toNum_19900101])
  rwa [List.length_map] at h

theorem length_DCS : DCS.length = 29221 := by
  obtain ⟨k, hk⟩ : ∃ k, DCS.length = k + 1 := by
    refine ⟨DCS.length - 1, ?_⟩
    have h := head?_DCS
    rcases hDCS : DCS with _ | ⟨x, t⟩
    · rw [hDCS] at h; simp at h
    · simp [List.length_cons]
  have h1 : (DCS.map toNum).getLast? = some 36525 := by
    rw [List.getLast?_map, getLast?_DCS]
    simp [toNum_20700101]
  rw [map_toNum_DCS, hk, getLast?_consec] at h1
  simp only [Option.some_inj] at h1
  omega

theorem toNum_mem_DCS (x : Date) (hx : x ∈ DCS) :
    7305 ≤ toNum x ∧ toNum x ≤ 36525 := by
  have hm : toNum x ∈ DCS.map toNum := List.mem_map_of_mem toNum hx
  rw [map_toNum_DCS, length_DCS, mem_consec] at hm
  omega

/-- Members of a strictly sorted list with equal day numbers are equal. -/
theorem pairwise_toNum_inj {L : List Date}
    (hp : List.Pairwise (fun a b => toNum a < toNum b) L) :
    ∀ a ∈ L, ∀ b ∈ L, toNum a = toNum b → a = b := by
  induction L with
  | nil => intro a ha; simp at ha
  | cons x t ih =>
    rw [List.pairwise_cons] at hp
    intro a ha b hb heq
    rcases List.mem_cons.mp ha with rfl | ha' <;>
      rcases List.mem_cons.mp hb with rfl | hb'
    · rfl
    · have := hp.1 b hb'; omega
    · have := hp.1 a ha'; omega
    · exact ih hp.2 a ha' b hb' heq

/-- Number of day numbers in `S` lying in the half-open window `(a, b]`
(start excluded, end included). -/
def countBetween (S : List Int) (a b : Int) : Nat :=
  S.countP (fun z => decide (a < z) && decide (z ≤ b))

theorem calc_du_eq_countBetween (cal : Calendar) (dia_1 dia_n : Date) :
    calc_du cal dia_1 dia_n = countBetween (cal.dus.map toNum) (toNum dia_1) (toNum dia_n) := by
  rw [calc_du, countBetween, List.countP_map, ← List.countP_eq_length_filter]
  rfl

theorem calc_dc_eq_countBetween (dia_1 dia_n : Date) :
    calc_dc dia_1 dia_n = countBetween (DCS.map toNum) (toNum dia_1) (toNum dia_n) := by
  rw [calc_dc, countBetween, List.countP_map, ← List.countP_eq_length_filter]
  rfl

/-- Claim C4: `calc_du` counts the business-calendar dates in the half-open
window `(start, end]`, `calc_dc` counts the all-calendar dates in the same
window, and both are 0 whenever `end ≤ start`. -/
theorem claim_c4 (cal : Calendar) (dia_1 dia_n : Date) :
    calc_du cal dia_1 dia_n = countBetween (cal.dus.map toNum) (toNum dia_1) (toNum dia_n) ∧
    calc_dc dia_1 dia_n = countBetween (DCS.map toNum) (toNum dia_1) (toNum dia_n) ∧
    (toNum dia_n ≤ toNum dia_1 → calc_du cal dia_1 dia_n = 0 ∧ calc_dc dia_1 dia_n = 0) := by
  refine ⟨calc_du_eq_countBetween cal dia_1 dia_n, calc_dc_eq_countBetween dia_1 dia_n, ?_⟩
  intro hle
  have hz : ∀ (S : List Int), countBetween S (toNum dia_1) (toNum dia_n) = 0 := by
    intro S
    rw [countBetween, List.countP_eq_zero]
    intro z hz
    simp only [Bool.and_eq_true, decide_eq_true_eq, not_and]
    intro
    omega
  rw [calc_du_eq_countBetween, calc_dc_eq_countBetween, hz, hz]
  exact ⟨rfl, rfl⟩

/-- Claim C9: for start before end (the hypothesis is in fact not needed),
the calendar-day count dominates the business-day count. -/
theorem claim_c9 (cal : Calendar) (dia_1 dia_n : Date)
    (_h : toNum dia_1 < toNum dia_n) :
    calc_du cal dia_1 dia_n ≤ calc_dc dia_1 dia_n := by
  rw [calc_du, calc_dc]
  have hnd : (cal.dus.filter
      (fun x => toNum dia_1 < toNum x && toNum x ≤ toNum dia_n)).Nodup := by
    apply List.Nodup.filter
    exact cal.sorted.imp (fun hlt => by intro heq; subst heq; omega)
  have hsub : (cal.dus.filter (fun x => toNum dia_1 < toNum x && toNum x ≤ toNum dia_n)) ⊆
      (DCS.filter (fun x => toNum dia_1 < toNum x && toNum x ≤ toNum dia_n)) := by
    intro x hx
    rw [List.mem_filter] at hx ⊢
    exact ⟨cal.sub x hx.1, hx.2⟩
  exact (List.subperm_of_subset hnd hsub).length_le

/-- Claim C10: for dates inside the horizon, `calc_dc` is exactly the whole
number of days from start to end. -/
theorem claim_c10 (dia_1 dia_n : Date)
    (hlo : toNum ⟨1990, 1, 1⟩ ≤ toNum dia_1)
    (hle : toNum dia_1 ≤ toNum dia_n)
    (hhi : toNum dia_n < toNum ⟨2070, 1, 1⟩) :
    (calc_dc dia_1 dia_n : Int) = toNum dia_n - toNum dia_1 := by
  rw [toNum_19900101] at hlo
  rw [toNum_20700101] at hhi
  rw [calc_dc_eq_countBetween, map_toNum_DCS, length_DCS, countBetween,
    countP_consec 29221 7305 (toNum dia_1) (toNum dia_n) (by omega) (by omega) hle]
  omega

/-- The empty business calendar (a degenerate but valid instance). -/
def calEmpty : Calendar :=
  ⟨[], List.Pairwise.nil, by intro x hx; simp at hx⟩

theorem claim_c9_witness :
    toNum ⟨2021, 1, 4⟩ < toNum ⟨2021, 1, 29⟩ ∧
    calc_du calEmpty ⟨2021, 1, 4⟩ ⟨2021, 1, 29⟩ ≤
      calc_dc ⟨2021, 1, 4⟩ ⟨2021, 1, 29⟩ :=
  ⟨by decide, claim_c9 _ _ _ (by decide)⟩

theorem claim_c10_witness :
    (calc_dc ⟨2021, 1, 4⟩ ⟨2021, 1, 29⟩ : Int) = toNum ⟨2021, 1, 29⟩ - toNum ⟨2021, 1, 4⟩ :=
  claim_c10 ⟨2021, 1, 4⟩ ⟨2021, 1, 29⟩ (by decide) (by decide) (by decide)

theorem claim_c4_witness :
    toNum ⟨2021, 1, 5⟩ ≤ toNum ⟨2021, 1, 10⟩ ∧
    calc_du calEmpty ⟨2021, 1, 10⟩ ⟨2021, 1, 5⟩ = 0 ∧
    calc_dc ⟨2021, 1, 10⟩ ⟨2021, 1, 5⟩ = 0 :=
  ⟨by decide,
    (claim_c4 calEmpty ⟨2021, 1, 10⟩ ⟨2021, 1, 5⟩).2.2
      (by decide)⟩

theorem mem_monthDates_iff (x : Date) (y m : Int) :
    x ∈ monthDates y m ↔ x.y = y ∧ x.m = m ∧ 1 ≤ x.d ∧ x.d ≤ (monthLen y m : Int) := by
  simp only [monthDates, List.mem_map, List.mem_range]
  constructor
  · rintro ⟨i, hi, rfl⟩
    refine ⟨rfl, rfl, ?_, ?_⟩ <;> dsimp only <;> omega
  · intro ⟨h1, h2, h3, h4⟩
    refine ⟨(x.d - 1).toNat, by omega, ?_⟩
    obtain ⟨xy, xm, xd⟩ := x
    simp only at h1 h2 h3 h4 ⊢
    subst h1
    subst h2
    congr 1
    omega

theorem mem_yearDates_iff (x : Date) (y : Int) :
    x ∈ yearDates y ↔
      x.y = y ∧ 1 ≤ x.m ∧ x.m ≤ 12 ∧ 1 ≤ x.d ∧ x.d ≤ (monthLen y x.m : Int) := by
  constructor
  · intro h
    simp only [yearDates, List.mem_append, mem_monthDates_iff] at h
    rcases h with h | h | h | h | h | h | h | h | h | h | h | h <;>
      (obtain ⟨h1, h2, h3, h4⟩ := h
       refine ⟨h1, by omega, by omega, h3, by rw [h2]; exact h4⟩)
  · intro ⟨h1, h2, h3, h4, h5⟩
    obtain ⟨xy, xm, xd⟩ := x
    simp only at h1 h2 h3 h4 h5
    subst h1
    simp only [yearDates, List.mem_append, mem_monthDates_iff]
    interval_cases xm <;> simp only [true_and]
    · exact Or.inl ⟨h4, h5⟩
    · exact Or.inr (Or.inl ⟨h4, h5⟩)
    · exact Or.inr (Or.inr (Or.inl ⟨h4, h5⟩))
    · exact Or.inr (Or.inr (Or.inr (Or.inl ⟨h4, h5⟩)))
    · exact Or.inr (Or.inr (Or.inr (Or.inr (Or.inl ⟨h4, h5⟩))))
    · exact Or.inr (Or.inr (Or.inr (Or.inr (Or.inr (Or.inl ⟨h4, h5⟩)))))
    · exact Or.inr (Or.inr (Or.inr (Or.inr (Or.inr (Or.inr (Or.inl ⟨h4, h5⟩))))))
    · exact Or.inr (Or.inr (Or.inr (Or.inr (Or.inr (Or.inr (Or.inr (Or.inl ⟨h4, h5⟩)))))))
    · exact Or.inr (Or.inr (Or.inr (Or.inr (Or.inr (Or.inr (Or.inr (Or.inr (Or.inl ⟨h4, h5⟩))))))))
    · exact Or.inr (Or.inr (Or.inr (Or.inr (Or.inr (Or.inr (Or.inr (Or.inr (Or.inr (Or.inl ⟨h4, h5⟩)))))))))
    · exact Or.inr (Or.inr (Or.inr (Or.inr (Or.inr (Or.inr (Or.inr (Or.inr (Or.inr (Or.inr (Or.inl ⟨h4, h5⟩))))))))))
    · exact Or.inr (Or.inr (Or.inr (Or.inr (Or.inr (Or.inr (Or.inr (Or.inr (Or.inr (Or.inr (Or.inr (⟨h4, h5⟩)))))))))))

theorem mem_yearsFrom_iff (x : Date) (a : Int) (n : Nat) :
    x ∈ yearsFrom a n ↔
      a ≤ x.y ∧ x.y < a + n ∧ 1 ≤ x.m ∧ x.m ≤ 12 ∧ 1 ≤ x.d ∧
        x.d ≤ (monthLen x.y x.m : Int) := by
  induction n generalizing a with
  | zero =>
    show x ∈ ([] : List Date) ↔ _
    simp only [List.not_mem_nil, false_iff]
    push_cast
    omega
  | succ k ih =>
    show x ∈ yearDates a ++ yearsFrom (a + 1) k ↔ _
    rw [List.mem_append, mem_yearDates_iff, ih (a + 1)]
    constructor
    · rintro (⟨h1, h⟩ | ⟨h1, h2, h⟩)
      · subst h1
        refine ⟨le_refl _, by push_cast; omega, h⟩
      · refine ⟨by omega, by push_cast at h2 ⊢; omega, h⟩
    · intro ⟨h1, h2, h⟩
      rcases eq_or_lt_of_le h1 with heq | hlt
      · subst heq
        exact Or.inl ⟨rfl, h⟩
      · exact Or.inr ⟨by omega, by push_cast at h2 ⊢; omega, h⟩

theorem mem_DCS_iff (x : Date) :
    x ∈ DCS ↔
      (1990 ≤ x.y ∧ x.y ≤ 2069 ∧ 1 ≤ x.m ∧ x.m ≤ 12 ∧ 1 ≤ x.d ∧
        x.d ≤ (monthLen x.y x.m : Int)) ∨ x = ⟨2070, 1, 1⟩ := by
  show x ∈ yearsFrom 1990 80 ++ [⟨2070, 1, 1⟩] ↔ _
  rw [List.mem_append, mem_yearsFrom_iff]
  simp only [List.mem_singleton]
  constructor
  · rintro (⟨h1, h2, h⟩ | h)
    · exact Or.inl ⟨h1, by push_cast at h2; omega, h⟩
    · exact Or.inr h
  · rintro (⟨h1, h2, h⟩ | h)
    · exact Or.inl ⟨h1, by push_cast; omega, h⟩
    · exact Or.inr h

theorem mem_DCS_of (y m d : Int) (hy1 : 1990 ≤ y) (hy2 : y ≤ 2069)
    (hm1 : 1 ≤ m) (hm2 : m ≤ 12) (hd1 : 1 ≤ d) (hd2 : d ≤ (monthLen y m : Int)) :
    (⟨y, m, d⟩ : Date) ∈ DCS := by
  rw [mem_DCS_iff]
  exact Or.inl ⟨hy1, hy2, hm1, hm2, hd1, hd2⟩

theorem mem_dcs_month_iff (x : Date) (m y : Int) :
    x ∈ dcs_month m y ↔ x ∈ DCS ∧ x.m = m ∧ x.y = y := by
  rw [dcs_month, List.mem_filter]
  simp [Bool.and_eq_true, beq_iff_eq, and_assoc]

/-- The shape of a member of a month window: a day of that month and year. -/
theorem mem_dcs_month_shape (x : Date) (m y : Int) (hx : x ∈ dcs_month m y) :
    x.m = m ∧ x.y = y ∧ 1 ≤ x.d ∧ x.d ≤ (monthLen y m : Int) := by
  rw [mem_dcs_month_iff] at hx
  obtain ⟨hD, hm, hy⟩ := hx
  rw [mem_DCS_iff] at hD
  rcases hD with ⟨_, _, _, _, h5, h6⟩ | heq
  · rw [hm, hy] at h6
    exact ⟨hm, hy, h5, h6⟩
  · subst heq
    dsimp only at hm hy
    subst hm
    subst hy
    refine ⟨rfl, rfl, by norm_num, by decide⟩

theorem filter_monthDates (a mm m y : Int) :
    (monthDates a mm).filter (fun x => x.m == m && x.y == y) =
      if mm = m ∧ a = y then monthDates a mm else [] := by
  split_ifs with h
  · apply List.filter_eq_self.mpr
    intro x hx
    rw [mem_monthDates_iff] at hx
    obtain ⟨h1, h2, _, _⟩ := hx
    simp only [Bool.and_eq_true, beq_iff_eq]
    exact ⟨by rw [h2, h.1], by rw [h1, h.2]⟩
  · apply List.filter_eq_nil_iff.mpr
    intro x hx
    rw [mem_monthDates_iff] at hx
    obtain ⟨h1, h2, _, _⟩ := hx
    simp only [Bool.and_eq_true, beq_iff_eq, not_and]
    intro h3 h4
    exact h ⟨by omega, by omega⟩

theorem filter_yearDates (a m y : Int) (hm1 : 1 ≤ m) (hm2 : m ≤ 12) :
    (yearDates a).filter (fun x => x.m == m && x.y == y) =
      if a = y then monthDates y m else [] := by
  unfold yearDates
  simp only [List.filter_append, filter_monthDates]
  by_cases hy : a = y
  · subst hy
    interval_cases m <;> simp
  · simp [hy]

theorem filter_yearsFrom (m y : Int) (hm1 : 1 ≤ m) (hm2 : m ≤ 12) :
    ∀ (n : Nat) (a : Int),
      (yearsFrom a n).filter (fun x => x.m == m && x.y == y) =
        if a ≤ y ∧ y < a + n then monthDates y m else [] := by
  intro n
  induction n with
  | zero =>
    intro a
    rw [if_neg (by omega)]
    rfl
  | succ k ih =>
    intro a
    show (yearDates a ++ yearsFrom (a + 1) k).filter _ = _
    rw [List.filter_append, filter_yearDates a m y hm1 hm2, ih (a + 1)]
    by_cases h1 : a = y
    · subst h1
      rw [if_pos rfl, if_neg (by omega), if_pos (by push_cast; omega)]
      simp
    · rw [if_neg h1]
      by_cases h2 : a + 1 ≤ y ∧ y < a + 1 + k
      · rw [if_pos h2, if_pos (by push_cast at h2 ⊢; omega)]
        simp
      · rw [if_neg h2, if_neg (by push_cast at h2 ⊢; omega)]
        simp

/-- The month window of `DCS_DF` is exactly the days of that month, for any
month of the horizon (2070 has only its January 1st, hence `y ≤ 2069`). -/
theorem dcs_month_eq (m y : Int) (hy1 : 1990 ≤ y) (hy2 : y ≤ 2069)
    (hm1 : 1 ≤ m) (hm2 : m ≤ 12) :
    dcs_month m y = monthDates y m := by
  show (yearsFrom 1990 80 ++ ([⟨2070, 1, 1⟩] : List Date)).filter _ = _
  rw [List.filter_append, filter_yearsFrom m y hm1 hm2 80 1990,
    if_pos (by push_cast; omega)]
  have hs : ((⟨2070, 1, 1⟩ : Date).m == m && (⟨2070, 1, 1⟩ : Date).y == y) = false := by
    simp only [Bool.and_eq_false_iff, beq_eq_false_iff_ne]
    right
    dsimp only
    omega
  simp [List.filter, hs]

theorem pairwise_dcs_month (m y : Int) :
    List.Pairwise (fun a b => toNum a < toNum b) (dcs_month m y) :=
  List.Pairwise.sublist (List.filter_sublist DCS) pairwise_DCS

theorem pairwise_fridays (m y : Int) :
    List.Pairwise (fun a b => toNum a < toNum b) (fridays m y) :=
  List.Pairwise.sublist (List.filter_sublist (dcs_month m y)) (pairwise_dcs_month m y)

theorem pairwise_wednesdays (m y : Int) :
    List.Pairwise (fun a b => toNum a < toNum b) (wednesdays m y) :=
  List.Pairwise.sublist (List.filter_sublist (dcs_month m y)) (pairwise_dcs_month m y)

/-- In a strictly sorted list, the element with exactly `k` strictly smaller
members sits at index `k`. -/
theorem sorted_countP_getElem (L : List Date)
    (hp : List.Pairwise (fun a b => toNum a < toNum b) L) (f : Date) (hf : f ∈ L) :
    L[L.countP (fun g => decide (toNum g < toNum f))]? = some f := by
  induction L with
  | nil => simp at hf
  | cons x t ih =>
    rw [List.pairwise_cons] at hp
    rcases List.mem_cons.mp hf with rfl | hf'
    · have h0 : List.countP (fun g => decide (toNum g < toNum f)) (f :: t) = 0 := by
        rw [List.countP_eq_zero]
        intro g hg
        rcases List.mem_cons.mp hg with rfl | hg'
        · simp
        · have := hp.1 g hg'
          simp only [decide_eq_true_eq]
          omega
      rw [h0]
      simp
    · have hx : toNum x < toNum f := hp.1 f hf'
      rw [List.countP_cons]
      rw [if_pos (by simp only [decide_eq_true_eq]; exact hx)]
      rw [List.getElem?_cons_succ]
      exact ih hp.2 hf'

/-- In a strictly sorted list, a lower bound that is a member is the head. -/
theorem sorted_head_eq (M : List Date)
    (hp : List.Pairwise (fun a b => toNum a < toNum b) M) (b : Date) (hb : b ∈ M)
    (hmin : ∀ x ∈ M, toNum b ≤ toNum x) : M.head? = some b := by
  rcases M with _ | ⟨x, t⟩
  · simp at hb
  · rw [List.pairwise_cons] at hp
    rcases List.mem_cons.mp hb with rfl | hb'
    · rfl
    · have h1 := hp.1 b hb'
      have h2 := hmin x (List.mem_cons_self x t)
      omega

/-- In a strictly sorted list, an upper bound that is a member is the last. -/
theorem sorted_getLast_eq (M : List Date)
    (hp : List.Pairwise (fun a b => toNum a < toNum b) M) (b : Date) (hb : b ∈ M)
    (hmax : ∀ x ∈ M, toNum x ≤ toNum b) : M.getLast? = some b := by
  induction M with
  | nil => simp at hb
  | cons x t ih =>
    rw [List.pairwise_cons] at hp
    rcases t with _ | ⟨u, t'⟩
    · rcases List.mem_cons.mp hb with rfl | hb'
      · rfl
      · simp at hb'
    · rw [List.getLast?_cons_cons]
      rcases List.mem_cons.mp hb with rfl | hb'
      · have h1 := hp.1 u (List.mem_cons_self u t')
        have h2 := hmax u (List.mem_cons_of_mem _ (List.mem_cons_self u t'))
        omega
      · exact ih hp.2 hb' (fun x hx => hmax x (List.mem_cons_of_mem _ hx))

/-- The third Friday of the month window: a Friday of the window preceded by
exactly two Fridays of the window. -/
def isThirdFriday (m y : Int) (f : Date) : Prop :=
  f ∈ fridays m y ∧ (fridays m y).countP (fun g => decide (toNum g < toNum f)) = 2

/-- The latest business day strictly before `t`. -/
def isLatestBusBefore (cal : Calendar) (t b : Date) : Prop :=
  b ∈ cal.dus ∧ toNum b < toNum t ∧ ∀ x ∈ cal.dus, toNum x < toNum t → toNum x ≤ toNum b

/-- Claim C1: whenever a third Friday of the month window exists,
`get_third_friday_du_month` returns it if it is a business day, and otherwise
returns the latest business day strictly before it. -/
theorem claim_c1 (cal : Calendar) (m y : Int) (f : Date) (h3 : isThirdFriday m y f) :
    (indexContains cal f = true → get_third_friday_du_month cal m y = .ok f) ∧
    (indexContains cal f = false → ∀ b, isLatestBusBefore cal f b →
      get_third_friday_du_month cal m y = .ok b) := by
  have hget : (fridays m y)[2]? = some f := by
    have h := sorted_countP_getElem (fridays m y) (pairwise_fridays m y) f h3.1
    rw [h3.2] at h
    exact h
  constructor
  · intro hc
    rw [get_third_friday_du_month, hget]
    simp [hc]
  · intro hc b hb
    rw [get_third_friday_du_month, hget]
    have hlast : (cal.dus.filter (fun x => decide (toNum x < toNum f))).getLast? = some b := by
      apply sorted_getLast_eq
      · exact List.Pairwise.sublist (List.filter_sublist cal.dus) cal.sorted
      · rw [List.mem_filter]
        exact ⟨hb.1, by simp only [decide_eq_true_eq]; exact hb.2.1⟩
      · intro x hx
        rw [List.mem_filter] at hx
        exact hb.2.2 x hx.1 (by simpa using hx.2)
    simp [hc, hlast]

/-- The first business day of month `m` of year `y` at or after its 15th. -/
def isFirstBusOnAfterFifteen (cal : Calendar) (m y : Int) (b : Date) : Prop :=
  b ∈ cal.dus ∧ b.m = m ∧ b.y = y ∧ toNum (⟨y, m, 15⟩ : Date) ≤ toNum b ∧
    ∀ x ∈ cal.dus, x.m = m → x.y = y → toNum (⟨y, m, 15⟩ : Date) ≤ toNum x →
      toNum b ≤ toNum x

/-- Claim C2 (amended): `get_fifteen` returns the earliest business day of the
same month at or after the literal 15th, in particular the 15th itself when it
is a business day; it never reaches into a later month. -/
theorem claim_c2_amended (cal : Calendar) (m y : Int) :
    (∀ b, isFirstBusOnAfterFifteen cal m y b → get_fifteen cal m y = .ok b) ∧
    ((⟨y, m, 15⟩ : Date) ∈ cal.dus → get_fifteen cal m y = .ok ⟨y, m, 15⟩) := by
  have hmain : ∀ b, isFirstBusOnAfterFifteen cal m y b → get_fifteen cal m y = .ok b := by
    intro b hb
    obtain ⟨h1, h2, h3, h4, h5⟩ := hb
    have hhead : ((dus_month cal m y).filter
        (fun x => decide (toNum (⟨y, m, 15⟩ : Date) ≤ toNum x))).head? = some b := by
      apply sorted_head_eq
      · exact List.Pairwise.sublist
          ((List.filter_sublist _).trans (List.filter_sublist cal.dus)) cal.sorted
      · rw [List.mem_filter, dus_month, List.mem_filter]
        refine ⟨⟨h1, ?_⟩, by simp only [decide_eq_true_eq]; exact h4⟩
        simp only [Bool.and_eq_true, beq_iff_eq]
        exact ⟨h2, h3⟩
      · intro x hx
        rw [List.mem_filter, dus_month, List.mem_filter] at hx
        obtain ⟨⟨hx1, hx2⟩, hx3⟩ := hx
        simp only [Bool.and_eq_true, beq_iff_eq] at hx2
        exact h5 x hx1 hx2.1 hx2.2 (by simpa using hx3)
    rw [get_fifteen, hhead]
  refine ⟨hmain, fun hmem => hmain ⟨y, m, 15⟩ ?_⟩
  exact ⟨hmem, rfl, rfl, le_refl _, fun x hx hx1 hx2 hx3 => hx3⟩

/-- Claim C8: whenever the third-Friday or nearest-Wednesday resolvers
succeed, the returned date is a member of the business-day set. -/
theorem get_third_friday_eq_some (cal : Calendar) (m y : Int) (f : Date)
    (hq : (fridays m y)[2]? = some f) :
    get_third_friday_du_month cal m y =
      if indexContains cal f then Except.ok f
      else
        match (cal.dus.filter (fun b => toNum b < toNum f)).getLast? with
        | some b => Except.ok b
        | none => Except.error PyError.indexError := by
  rw [get_third_friday_du_month, hq]

theorem get_wednesday_eq_some (cal : Calendar) (m y : Int) (w : Date)
    (hq : (sortByDist (wednesdays m y)).head? = some w) :
    get_wednesday_closest_fifteen cal m y =
      if indexContains cal w then Except.ok w
      else
        match (cal.dus.filter (fun b => toNum w < toNum b)).head? with
        | some b => Except.ok b
        | none => Except.error PyError.indexError := by
  rw [get_wednesday_closest_fifteen, hq]

theorem claim_c8 (cal : Calendar) (m y : Int) (d : Date) :
    (get_third_friday_du_month cal m y = .ok d → ∃ b ∈ cal.dus, toNum b = toNum d) ∧
    (get_wednesday_closest_fifteen cal m y = .ok d → ∃ b ∈ cal.dus, toNum b = toNum d) := by
  constructor
  · intro h
    rcases hq : (fridays m y)[2]? with _ | f
    · rw [get_third_friday_du_month, hq] at h
      simp at h
    · rw [get_third_friday_eq_some cal m y f hq] at h
      by_cases hc : indexContains cal f = true
      · rw [hc] at h
        simp only [if_true] at h
        simp only [Except.ok.injEq] at h
        subst h
        rw [indexContains, List.any_eq_true] at hc
        obtain ⟨b, hb, hbeq⟩ := hc
        exact ⟨b, hb, by simpa using hbeq⟩
      · rw [Bool.not_eq_true] at hc
        rw [hc] at h
        simp only [Bool.false_eq_true, if_false] at h
        rcases hg : (cal.dus.filter (fun b => decide (toNum b < toNum f))).getLast? with _ | g <;>
          rw [hg] at h
        · simp at h
        · simp only [Except.ok.injEq] at h
          subst h
          have hm := List.mem_of_getLast?_eq_some hg
          rw [List.mem_filter] at hm
          exact ⟨g, hm.1, rfl⟩
  · intro h
    rcases hq : (sortByDist (wednesdays m y)).head? with _ | w
    · rw [get_wednesday_closest_fifteen, hq] at h
      simp at h
    · rw [get_wednesday_eq_some cal m y w hq] at h
      by_cases hc : indexContains cal w = true
      · rw [hc] at h
        simp only [if_true] at h
        simp only [Except.ok.injEq] at h
        subst h
        rw [indexContains, List.any_eq_true] at hc
        obtain ⟨b, hb, hbeq⟩ := hc
        exact ⟨b, hb, by simpa using hbeq⟩
      · rw [Bool.not_eq_true] at hc
        rw [hc] at h
        simp only [Bool.false_eq_true, if_false] at h
        rcases hg : (cal.dus.filter (fun b => decide (toNum w < toNum b))).head? with _ | g <;>
          rw [hg] at h
        · simp at h
        · simp only [Except.ok.injEq] at h
          subst h
          obtain ⟨ys, hys⟩ := List.head?_eq_some_iff.mp hg
          have hm : g ∈ cal.dus.filter (fun b => decide (toNum w < toNum b)) := by
            rw [hys]
            exact List.mem_cons_self g ys
          rw [List.mem_filter] at hm
          exact ⟨g, hm.1, rfl⟩

deriving instance DecidableEq for Except

/-- A small valid calendar: 2021-01-15 is its only business day. -/
def calJan : Calendar :=
  ⟨[⟨2021, 1, 15⟩], by simp, by
    intro x hx
    simp only [List.mem_singleton] at hx
    subst hx
    exact mem_DCS_of 2021 1 15 (by norm_num) (by norm_num) (by norm_num) (by norm_num)
      (by norm_num) (by decide)⟩

/-- A small valid calendar: 2021-02-01 is its only business day. -/
def calFeb : Calendar :=
  ⟨[⟨2021, 2, 1⟩], by simp, by
    intro x hx
    simp only [List.mem_singleton] at hx
    subst hx
    exact mem_DCS_of 2021 2 1 (by norm_num) (by norm_num) (by norm_num) (by norm_num)
      (by norm_num) (by decide)⟩

theorem fridays_jan_2021 :
    (fridays 1 2021)[2]? = some ⟨2021, 1, 15⟩ := by
  rw [fridays, dcs_month_eq 1 2021 (by norm_num) (by norm_num) (by norm_num) (by norm_num)]
  decide

theorem claim_c1_witness :
    get_third_friday_du_month calJan 1 2021 = Except.ok ⟨2021, 1, 15⟩ := by
  refine (claim_c1 calJan 1 2021 ⟨2021, 1, 15⟩ ?_).1 (by decide)
  unfold isThirdFriday
  constructor
  · rw [fridays, dcs_month_eq 1 2021 (by norm_num) (by norm_num) (by norm_num) (by norm_num)]
    decide
  · rw [fridays, dcs_month_eq 1 2021 (by norm_num) (by norm_num) (by norm_num) (by norm_num)]
    decide

theorem claim_c2_amended_witness :
    get_fifteen calJan 1 2021 = Except.ok ⟨2021, 1, 15⟩ :=
  (claim_c2_amended calJan 1 2021).2 (by decide)

/-- Claim C2 is false as stated: under `calFeb` the earliest business day on
or after 2021-01-15 exists (2021-02-01, in the next month), yet
`get_fifteen` raises `IndexError` instead of returning it, because the code
filters the business days to the month before comparing with the 15th. -/
theorem claim_c2_counterexample :
    (toNum (⟨2021, 1, 15⟩ : Date) ≤ toNum (⟨2021, 2, 1⟩ : Date) ∧
      (⟨2021, 2, 1⟩ : Date) ∈ calFeb.dus ∧
      (∀ x ∈ calFeb.dus, toNum (⟨2021, 1, 15⟩ : Date) ≤ toNum x →
        toNum (⟨2021, 2, 1⟩ : Date) ≤ toNum x)) ∧
    get_fifteen calFeb 1 2021 = Except.error PyError.indexError ∧
    get_fifteen calFeb 1 2021 ≠ Except.ok ⟨2021, 2, 1⟩ := by
  refine ⟨by decide, by decide, by decide⟩

theorem claim_c8_witness :
    ∃ b ∈ calJan.dus, toNum b = toNum (⟨2021, 1, 15⟩ : Date) := by
  apply (claim_c8 calJan 1 2021 ⟨2021, 1, 15⟩).1
  rw [get_third_friday_eq_some calJan 1 2021 _ fridays_jan_2021]
  decide

theorem dcs_month_1980 : dcs_month 1 1980 = [] := by
  apply List.filter_eq_nil_iff.mpr
  intro x hx
  rw [mem_DCS_iff] at hx
  simp only [Bool.and_eq_true, beq_iff_eq, not_and]
  intro h1 h2
  rcases hx with ⟨hy, _⟩ | rfl
  · omega
  · dsimp only at h2
    omega

/-- Claim C7 (amended): with fewer than three Fridays in the window,
`get_third_friday_du_month` raises the unguarded IndexError of `index[2]`;
the code defines no `InsufficientFridays` error. -/
theorem claim_c7_amended (cal : Calendar) (m y : Int)
    (h : (fridays m y).length < 3) :
    get_third_friday_du_month cal m y = Except.error PyError.indexError := by
  have hq : (fridays m y)[2]? = none := by
    rw [List.getElem?_eq_none]
    omega
  rw [get_third_friday_du_month, hq]

theorem claim_c7_amended_witness :
    get_third_friday_du_month calEmpty 1 1980 = Except.error PyError.indexError := by
  apply claim_c7_amended
  rw [fridays, dcs_month_1980]
  norm_num

/-- Claim C7 is false as stated: January 1980 lies outside the horizon, so its
window holds fewer than three Fridays, and the call fails with the unguarded
IndexError of `index[2]`, not a defined `InsufficientFridays` failure. -/
theorem claim_c7_counterexample :
    (fridays 1 1980).length < 3 ∧
    get_third_friday_du_month calJan 1 1980 = Except.error PyError.indexError := by
  have h : fridays 1 1980 = [] := by
    rw [fridays, dcs_month_1980]
    rfl
  have hq : (fridays 1 1980)[2]? = none := by
    rw [h]
    rfl
  constructor
  · rw [h]
    norm_num
  · rw [get_third_friday_du_month, hq]

/-- Claim C5 is false as stated: an unrecognized convention selector does not
abort the batch; the call returns the table, just without the expiry column. -/
theorem claim_c5_counterexample :
    add_dia_vencimento_df calEmpty [⟨"F24"⟩] "bogus" =
      Except.ok [(⟨"F24"⟩, none)] := by decide

/-- Claim C5 (amended): for any selector outside the five recognized strings,
`add_dia_vencimento_df` silently returns every row with no expiry date
attached, raising no error. -/
theorem claim_c5_amended (cal : Calendar) (df : List RowIn) (metodo : String)
    (h1 : metodo ≠ "prim_du") (h2 : metodo ≠ "ult_du") (h3 : metodo ≠ "terceira_sexta")
    (h4 : metodo ≠ "quarta_prox_quinze") (h5 : metodo ≠ "dia_15") :
    add_dia_vencimento_df cal df metodo = Except.ok (df.map (fun r => (r, none))) := by
  rw [add_dia_vencimento_df, if_neg]
  rintro (h | h | h | h | h)
  · exact h1 h
  · exact h2 h
  · exact h3 h
  · exact h4 h
  · exact h5 h

theorem claim_c5_amended_witness :
    add_dia_vencimento_df calJan [⟨"Z99"⟩] "median" =
      Except.ok [(⟨"Z99"⟩, none)] :=
  claim_c5_amended calJan [⟨"Z99"⟩] "median" (by decide) (by decide) (by decide)
    (by decide) (by decide)

/-- Claim C6 is false as stated: the one-digit remainder of `"F1"` is not two
numeric digits, yet decoding does not fail; it produces the month-year pair
(1, 201) and resolution proceeds. -/
theorem claim_c6_counterexample :
    mes_vcto "F1" = some 1 ∧ pyIntOfMes (mes_vcto "F1") = Except.ok 1 ∧
    pyInt (ano_vcto "F1") = Except.ok 201 := by decide

theorem mem_dropWhile_of_mem {p : Char → Bool} {c : Char} {l : List Char}
    (hc : c ∈ l) (hp : p c = false) : c ∈ l.dropWhile p := by
  induction l with
  | nil => simp at hc
  | cons h t ih =>
    rw [List.dropWhile_cons]
    split_ifs with hh
    · rcases List.mem_cons.mp hc with rfl | hc'
      · rw [hp] at hh
        simp at hh
      · exact ih hc'
    · exact hc

theorem mem_stripWs {c : Char} {l : List Char} (hc : c ∈ l)
    (hw : isPyWs c = false) : c ∈ stripWs l := by
  rw [stripWs, List.mem_reverse]
  exact mem_dropWhile_of_mem (by rw [List.mem_reverse]; exact mem_dropWhile_of_mem hc hw) hw

/-- Every character of an accepted digit run is a digit or an underscore. -/
theorem pyDigitsAux_mem (l : List Char) : ∀ (p : Bool), pyDigitsAux p l = true →
    ∀ c ∈ l, isPyDigit c = true ∨ c.toNat = 95 := by
  induction l with
  | nil =>
    intro p _ c hc
    simp at hc
  | cons h t ih =>
    intro p hp c hc
    simp only [pyDigitsAux] at hp
    split_ifs at hp with h95
    · simp only [Bool.and_eq_true] at hp
      rcases List.mem_cons.mp hc with rfl | hc'
      · exact Or.inr h95
      · exact ih true hp.2 c hc'
    · simp only [Bool.and_eq_true] at hp
      rcases List.mem_cons.mp hc with rfl | hc'
      · exact Or.inl hp.1
      · exact ih false hp.2 c hc'

theorem pyDigits_mem (l : List Char) (h : pyDigits l = true) :
    ∀ c ∈ l, isPyDigit c = true ∨ c.toNat = 95 := by
  rcases l with _ | ⟨x, t⟩
  · intro c hc
    simp at hc
  · simp only [pyDigits, Bool.and_eq_true] at h
    intro c hc
    rcases List.mem_cons.mp hc with rfl | hc'
    · exact Or.inl h.1
    · exact pyDigitsAux_mem t false h.2 c hc'

/-- A string containing an ASCII letter is rejected by `int()`: a letter is
neither whitespace, nor a sign, nor a digit, nor an underscore. -/
theorem pyIntCore_none_of_letter (l : List Char) (c0 : Char) (hc : c0 ∈ l)
    (hl : isAsciiLetter c0 = true) : pyIntCore l = none := by
  have hb : (65 ≤ c0.toNat ∧ c0.toNat ≤ 90) ∨ (97 ≤ c0.toNat ∧ c0.toNat ≤ 122) := by
    simpa [isAsciiLetter, Bool.or_eq_true, Bool.and_eq_true] using hl
  have hlo : 65 ≤ c0.toNat ∧ c0.toNat ≤ 122 ∧ c0.toNat ≠ 95 := by
    rcases hb with ⟨h1, h2⟩ | ⟨h1, h2⟩ <;> exact ⟨by omega, by omega, by omega⟩
  have hdig : isPyDigit c0 = false := by
    simp only [isPyDigit, Bool.and_eq_false_iff, decide_eq_false_iff_not]
    omega
  have hws : isPyWs c0 = false := by
    simp only [isPyWs, Bool.or_eq_false_iff, decide_eq_false_iff_not]
    omega
  have hmem := mem_stripWs hc hws
  rw [pyIntCore]
  rcases hs : stripWs l with _ | ⟨c, t⟩
  · rw [hs] at hmem
    simp at hmem
  · rw [hs] at hmem
    rw [pySigned]
    rcases List.mem_cons.mp hmem with rfl | hmem'
    · have hpd : ¬(pyDigits (c0 :: t) = true) := by
        intro habs
        rcases pyDigits_mem _ habs c0 (List.mem_cons_self c0 t) with h | h
        · simp [hdig] at h
        · omega
      rw [if_neg (by omega), if_neg (by omega), if_neg hpd]
    · have hpdt : ¬(pyDigits t = true) := by
        intro habs
        rcases pyDigits_mem t habs c0 hmem' with h | h
        · simp [hdig] at h
        · omega
      have hpdct : ¬(pyDigits (c :: t) = true) := by
        intro habs
        rcases pyDigits_mem _ habs c0 (List.mem_cons_of_mem c hmem') with h | h
        · simp [hdig] at h
        · omega
      by_cases h43 : c.toNat = 43
      · rw [if_pos h43, if_neg hpdt]
      · by_cases h45 : c.toNat = 45
        · rw [if_neg h43, if_pos h45, if_neg hpdt]
        · rw [if_neg h43, if_neg h45, if_neg hpdct]

theorem pyInt_error_of_letter (s : String) (c0 : Char) (hc : c0 ∈ s.data)
    (hl : isAsciiLetter c0 = true) :
    pyInt s = Except.error PyError.valueError := by
  rw [pyInt, pyIntCore_none_of_letter s.data c0 hc hl]

/-- Claim C6 (amended): an unrecognized first letter leaves the month column
empty (NaN) and the row fails later with `int()`'s ValueError; a remainder
containing a letter fails with ValueError at the year conversion (real
`int()` likewise rejects any string holding a letter); a numeric remainder of
any length is accepted as the year `20<remainder>`. -/
theorem claim_c6_amended :
    (∀ (cal : Calendar) (metodo : String) (r : RowIn),
      mes_vcto r.vencimento = none →
      processRow cal metodo r = Except.error PyError.valueError) ∧
    (∀ (cal : Calendar) (metodo : String) (r : RowIn) (c : Char),
      c ∈ (ano_vcto r.vencimento).data → isAsciiLetter c = true →
      processRow cal metodo r = Except.error PyError.valueError) := by
  constructor
  · intro cal metodo r h
    simp [processRow, h, pyIntOfMes, Bind.bind, Except.bind]
  · intro cal metodo r c hc hl
    have hy := pyInt_error_of_letter (ano_vcto r.vencimento) c hc hl
    rcases hm : mes_vcto r.vencimento with _ | mv
    · simp [processRow, hm, pyIntOfMes, Bind.bind, Except.bind]
    · simp [processRow, hm, pyIntOfMes, hy, Bind.bind, Except.bind]

theorem claim_c6_amended_witness :
    processRow calJan "prim_du" ⟨"A24"⟩ = Except.error PyError.valueError ∧
    processRow calJan "prim_du" ⟨"F2x"⟩ = Except.error PyError.valueError :=
  ⟨claim_c6_amended.1 calJan "prim_du" ⟨"A24"⟩ (by decide),
   claim_c6_amended.2 calJan "prim_du" ⟨"F2x"⟩ (Char.ofNat 120) (by decide) (by decide)⟩

theorem mem_insertByDist (x a : Date) (l : List Date) :
    a ∈ insertByDist x l ↔ a = x ∨ a ∈ l := by
  induction l with
  | nil => simp [insertByDist]
  | cons h t ih =>
    rw [insertByDist]
    split_ifs with hle
    · simp only [List.mem_cons]
    · rw [List.mem_cons, ih, List.mem_cons]
      tauto

theorem mem_sortByDist (a : Date) (l : List Date) : a ∈ sortByDist l ↔ a ∈ l := by
  induction l with
  | nil => simp [sortByDist]
  | cons x t ih => rw [sortByDist, mem_insertByDist, ih, List.mem_cons]

/-- The head of the distance-sorted list is a member attaining the least
distance to the 15th. -/
theorem head?_sortByDist (l : List Date) (h : Date)
    (hh : (sortByDist l).head? = some h) :
    h ∈ l ∧ ∀ z ∈ l, dist_fifteen h ≤ dist_fifteen z := by
  induction l generalizing h with
  | nil => simp [sortByDist] at hh
  | cons x t ih =>
    rw [sortByDist] at hh
    rcases hst : sortByDist t with _ | ⟨h0, t0⟩
    · rw [hst, insertByDist] at hh
      simp only [List.head?_cons, Option.some_inj] at hh
      subst hh
      refine ⟨List.mem_cons_self x t, ?_⟩
      intro z hz
      rcases List.mem_cons.mp hz with rfl | hz'
      · exact le_refl _
      · have : z ∈ sortByDist t := (mem_sortByDist z t).mpr hz'
        rw [hst] at this
        simp at this
    · rw [hst] at hh
      have ih0 := ih h0 (by rw [hst]; rfl)
      rw [insertByDist] at hh
      split_ifs at hh with hle
      · simp only [List.head?_cons, Option.some_inj] at hh
        subst hh
        refine ⟨List.mem_cons_self x t, ?_⟩
        intro z hz
        rcases List.mem_cons.mp hz with rfl | hz'
        · exact le_refl _
        · exact le_trans hle (ih0.2 z hz')
      · simp only [List.head?_cons, Option.some_inj] at hh
        subst hh
        refine ⟨List.mem_cons_of_mem x ih0.1, ?_⟩
        intro z hz
        rcases List.mem_cons.mp hz with rfl | hz'
        · omega
        · exact ih0.2 z hz'

theorem weekday_eq_iff (y m a b : Int) :
    weekday ⟨y, m, a⟩ = weekday ⟨y, m, b⟩ ↔ (a - b) % 7 = 0 := by
  rw [weekday, weekday, toNum_day_shift y m a b]
  omega

theorem mem_wednesdays (x : Date) (m y : Int) (hx : x ∈ wednesdays m y) :
    x ∈ dcs_month m y ∧ weekday x = 2 := by
  rw [wednesdays, List.mem_filter] at hx
  exact ⟨hx.1, by simpa using hx.2⟩

/-- The Wednesday of the month window closest to the 15th: a member of the
window minimizing the distance, with ties broken toward the earlier date. -/
def isClosestWednesday (m y : Int) (w : Date) : Prop :=
  w ∈ wednesdays m y ∧ ∀ x ∈ wednesdays m y,
    dist_fifteen w < dist_fifteen x ∨
      (dist_fifteen w = dist_fifteen x ∧ toNum w ≤ toNum x)

/-- The earliest business day strictly after `t`. -/
def isEarliestBusAfter (cal : Calendar) (t b : Date) : Prop :=
  b ∈ cal.dus ∧ toNum t < toNum b ∧ ∀ x ∈ cal.dus, toNum t < toNum x → toNum b ≤ toNum x

/-- The distance-minimizing Wednesday is unique (two distinct Wednesdays of
one month with equal distance force the 15th itself to be a Wednesday at
distance zero), so the head of the sorted list is the spec minimizer. -/
theorem sortByDist_head_unique (m y : Int) (hy1 : 1990 ≤ y) (hy2 : y ≤ 2069)
    (hm1 : 1 ≤ m) (hm2 : m ≤ 12) (w : Date) (hw : isClosestWednesday m y w) :
    (sortByDist (wednesdays m y)).head? = some w := by
  have hwmem : w ∈ sortByDist (wednesdays m y) := (mem_sortByDist _ _).mpr hw.1
  rcases hs : sortByDist (wednesdays m y) with _ | ⟨h, t⟩
  · rw [hs] at hwmem
    simp at hwmem
  · have hh := head?_sortByDist (wednesdays m y) h (by rw [hs]; rfl)
    have hmin := hh.2 w hw.1
    have hcmp := hw.2 h hh.1
    have hdist : dist_fifteen w = dist_fifteen h := by omega
    have hsw := mem_dcs_month_shape w m y (mem_wednesdays w m y hw.1).1
    have hsh := mem_dcs_month_shape h m y (mem_wednesdays h m y hh.1).1
    have heq : h = w := by
      by_cases hd : w.d = h.d
      · have e1 : h = (⟨h.y, h.m, h.d⟩ : Date) := rfl
        have e2 : w = (⟨w.y, w.m, w.d⟩ : Date) := rfl
        rw [e1, e2, hsh.1, hsh.2.1, hsw.1, hsw.2.1, hd]
      · exfalso
        have hsum : w.d + h.d = 30 := by
          simp only [dist_fifteen] at hdist
          omega
        have ew : w = (⟨y, m, w.d⟩ : Date) := by
          have e2 : w = (⟨w.y, w.m, w.d⟩ : Date) := rfl
          rw [e2, hsw.1, hsw.2.1]
        have eh : h = (⟨y, m, h.d⟩ : Date) := by
          have e1 : h = (⟨h.y, h.m, h.d⟩ : Date) := rfl
          rw [e1, hsh.1, hsh.2.1]
        have hwk : weekday (⟨y, m, w.d⟩ : Date) = weekday (⟨y, m, h.d⟩ : Date) := by
          rw [← ew, ← eh, (mem_wednesdays w m y hw.1).2, (mem_wednesdays h m y hh.1).2]
        rw [weekday_eq_iff] at hwk
        have hw15 : weekday (⟨y, m, 15⟩ : Date) = 2 := by
          have : weekday (⟨y, m, 15⟩ : Date) = weekday (⟨y, m, w.d⟩ : Date) := by
            rw [weekday_eq_iff]
            omega
          rw [this, ← ew, (mem_wednesdays w m y hw.1).2]
        have hf15 : (⟨y, m, 15⟩ : Date) ∈ wednesdays m y := by
          rw [wednesdays, List.mem_filter, mem_dcs_month_iff]
          have hlen := monthLen_ge y m
          refine ⟨⟨mem_DCS_of y m 15 hy1 hy2 hm1 hm2 (by norm_num) (by omega), rfl, rfl⟩, ?_⟩
          simp only [hw15, beq_self_eq_true]
        have hcmp15 := hw.2 _ hf15
        have h15 : dist_fifteen (⟨y, m, 15⟩ : Date) = 0 := by
          simp [dist_fifteen]
        simp only [dist_fifteen] at hcmp15 h15 hdist
        omega
    rw [List.head?_cons, heq]

/-- Claim C3: `get_wednesday_closest_fifteen` returns the Wednesday of the
month minimizing the distance to the 15th (ties broken toward the earlier
date, a vacuous case) when it is a business day, and otherwise the earliest
business day strictly after it. -/
theorem claim_c3 (cal : Calendar) (m y : Int) (hy1 : 1990 ≤ y) (hy2 : y ≤ 2069)
    (hm1 : 1 ≤ m) (hm2 : m ≤ 12) (w : Date) (hw : isClosestWednesday m y w) :
    (indexContains cal w = true → get_wednesday_closest_fifteen cal m y = .ok w) ∧
    (indexContains cal w = false → ∀ b, isEarliestBusAfter cal w b →
      get_wednesday_closest_fifteen cal m y = .ok b) := by
  have hhead := sortByDist_head_unique m y hy1 hy2 hm1 hm2 w hw
  constructor
  · intro hc
    rw [get_wednesday_eq_some cal m y w hhead, if_pos hc]
  · intro hc b hb
    rw [get_wednesday_eq_some cal m y w hhead, if_neg (by rw [hc]; simp)]
    have hfirst : (cal.dus.filter (fun x => decide (toNum w < toNum x))).head? = some b := by
      apply sorted_head_eq
      · exact List.Pairwise.sublist (List.filter_sublist cal.dus) cal.sorted
      · rw [List.mem_filter]
        exact ⟨hb.1, by simp only [decide_eq_true_eq]; exact hb.2.1⟩
      · intro x hx
        rw [List.mem_filter] at hx
        exact hb.2.2 x hx.1 (by simpa using hx.2)
    rw [hfirst]

theorem claim_c3_witness :
    get_wednesday_closest_fifteen calJan 1 2021 = Except.ok ⟨2021, 1, 15⟩ := by
  refine (claim_c3 calJan 1 2021 (by norm_num) (by norm_num) (by norm_num) (by norm_num)
    ⟨2021, 1, 13⟩ ?_).2 (by decide) ⟨2021, 1, 15⟩ (by unfold isEarliestBusAfter; decide)
  unfold isClosestWednesday
  rw [wednesdays, dcs_month_eq 1 2021 (by norm_num) (by norm_num) (by norm_num) (by norm_num)]
  decide
